import Mathlib

/-!
Verification of the trend-following screener core (src/main.py).

The embedding models the core algorithms of `main.py`:
- the liquidity filter (`liquidity_threshold`, the trailing 60-observation
  average of close*volume, `liqOk`),
- the monthly aggregator (dropping the still-open calendar month, the
  insufficient-history error),
- the correlation deduplicator (pairwise scan, liquidity tie-break with
  IEEE-style NaN comparison semantics),
- the ranker (pandas stable lexicographic sort on (trend_ok desc, mom desc),
  rank = position + 1),
- the order diff engine (`build_orders`) and the historical pick lookup
  (`load_prev_picks_from_history`).

Missing float values (pandas NaN) are modelled as `Option ℚ` where only
`isna`-style tests and ordinary comparisons occur, and as the three-valued
`FloatVal` (`nan`, `ninf`, `val q`) where IEEE comparison semantics with
NaN and negative infinity matter (the dedup tie-break, the score column).
-/

namespace TrendScreen

/-- Stable insertion of `x` into `l` under the strict comparator `lt`:
`x` skips over the elements strictly before it and lands in front of the
first element that is not strictly before `x`. -/
def insertS {α : Type} (lt : α → α → Bool) (x : α) : List α → List α
  | [] => [x]
  | y :: ys => if lt y x then y :: insertS lt x ys else x :: y :: ys

/-- Stable sort by the strict comparator `lt` (insertion sort, leftmost
input element inserted last, so equal-key elements keep input order).
This models the stable lexicographic sorts used by `main.py`
(`sorted(...)`, `list.sort(key=...)`, and the stable multi-column
`DataFrame.sort_values`). -/
def sortS {α : Type} (lt : α → α → Bool) : List α → List α
  | [] => []
  | x :: xs => insertS lt x (sortS lt xs)

/-- Strict `<` on string keys, as used by Python `sorted` on tickers and
date strings. -/
def strLt (a b : String) : Bool := decide (a < b)

/-- A float value as it occurs in the dedup tie-break and in the score
column: NaN, negative infinity, or a finite value. -/
inductive FloatVal : Type
  | nan : FloatVal
  | ninf : FloatVal
  | val : ℚ → FloatVal
deriving DecidableEq

/-- IEEE-754 `<` restricted to the values that occur: any comparison with
NaN is false, `-inf < v` is true for finite `v`, `-inf < -inf` is false. -/
def flt : FloatVal → FloatVal → Bool
  | .val a, .val b => decide (a < b)
  | .ninf, .val _ => true
  | _, _ => false

/-- `main.py` line 102: the yen-market threshold for tickers with the
`.T` suffix, the default threshold otherwise. -/
def liquidity_threshold (t : String) : ℚ :=
  if t.endsWith ".T" then 50000000 else 1000000

/-- Pointwise product of a close and a volume observation; NaN (modelled
as `none`) if either is missing. -/
def mulCV : Option ℚ → Option ℚ → Option ℚ
  | some c, some v => some (c * v)
  | _, _ => none

/-- The daily close*volume series of one symbol (`close_d * vol_d`). -/
def prodCV (closes vols : List (Option ℚ)) : List (Option ℚ) :=
  List.zipWith mulCV closes vols

/-- `series.rolling(w).mean().iloc[-1]` with the default
`min_periods = w`: defined only when at least `w` rows exist and the last
`w` rows are all non-missing, in which case it is their mean. -/
def rollingMeanLast (w : ℕ) (xs : List (Option ℚ)) : Option ℚ :=
  if xs.length < w then none
  else
    let win := xs.drop (xs.length - w)
    if win.all Option.isSome then some ((win.filterMap id).sum / (w : ℚ)) else none

/-- `main.py` line 212: the trailing 60-observation average traded value
`(close_d * vol_d).rolling(60).mean().iloc[-1]` for one symbol. -/
def tradedValue60 (closes vols : List (Option ℚ)) : Option ℚ :=
  rollingMeanLast 60 (prodCV closes vols)

/-- `main.py` lines 214-219: a symbol passes the liquidity filter iff its
traded-value metric is defined and at least its market threshold. -/
def liqOk (closes vols : List (Option ℚ)) (t : String) : Bool :=
  match tradedValue60 closes vols with
  | some v => decide (liquidity_threshold t ≤ v)
  | none => false

/-- A calendar month, as compared by `to_period("M")`: (year, month). -/
abbrev Month := ℕ × ℕ

/-- `main.py` lines 225-228: drop the last monthly row when its calendar
month equals the current processing month (the month is still open). -/
def dropOpenMonth {α : Type} (rows : List (Month × α)) (now : Month) : List (Month × α) :=
  match rows.getLast? with
  | some e => if e.1 = now then rows.dropLast else rows
  | none => rows

/-- Whether an `Except` computation failed. -/
def isErr {ε α : Type} : Except ε α → Bool
  | .error _ => true
  | .ok _ => false

/-- `main.py` lines 225-231: finalize the monthly rows and fail when fewer
than `max MA_MONTHS MOM_MONTHS + 2` finalized months remain. -/
def monthlyAggregate {α : Type} (rows : List (Month × α)) (now : Month)
    (maM momM : ℕ) : Except String (List (Month × α)) :=
  let r := dropOpenMonth rows now
  if r.length < max maM momM + 2 then
    .error "not enough monthly history for MA/Momentum"
  else
    .ok r

/-- `traded_value_60d.get(t, -np.inf)`: the stored float (possibly NaN)
when the symbol is present in the series, `-inf` when absent. -/
def tvGet (tv : List (String × FloatVal)) (t : String) : FloatVal :=
  match tv.find? (fun e => e.1 == t) with
  | some e => e.2
  | none => .ninf

/-- `main.py` line 248: the member of a flagged pair that gets marked:
`a if traded_value.get(a, -inf) < traded_value.get(b, -inf) else b`. -/
def dropChoice (tv : List (String × FloatVal)) (a b : String) : String :=
  if flt (tvGet tv a) (tvGet tv b) then a else b

/-- The ordered pairs `(cols[i], cols[j])`, `i < j`, in the iteration
order of the double loop at `main.py` lines 243-244. -/
def pairsOf : List String → List (String × String)
  | [] => []
  | a :: rest => rest.map (fun b => (a, b)) ++ pairsOf rest

/-- One step of the dedup loop body (`main.py` lines 245-249): when the
pair's correlation is defined (not NaN) and at least the threshold, add
the tie-break loser to the removal set. -/
def corrStep (corr : String → String → Option ℚ) (thr : ℚ)
    (tv : List (String × FloatVal)) (acc : List String) (p : String × String) : List String :=
  match corr p.1 p.2 with
  | some c => if thr ≤ c then acc.insert (dropChoice tv p.1 p.2) else acc
  | none => acc

/-- `main.py` lines 241-249: the set `to_drop` of symbols marked for
removal by the correlation deduplicator. -/
def toDrop (corr : String → String → Option ℚ) (thr : ℚ)
    (tv : List (String × FloatVal)) (cols : List String) : List String :=
  (pairsOf cols).foldl (corrStep corr thr tv) []

/-- Strict momentum comparison used as the secondary sort key, descending
with NaN momentum last within its group (pandas `na_position="last"`). -/
def momGt : Option ℚ → Option ℚ → Bool
  | some a, some b => decide (b < a)
  | some _, none => true
  | _, _ => false

/-- The strict "sorts before" comparator of `main.py` line 276:
`sort_values(["trend_ok", "mom12"], ascending=[False, False])` — trend
flag descending first, then momentum descending (NaN last). -/
def ltRank (trend : String → Bool) (mom : String → Option ℚ) (a b : String) : Bool :=
  (trend a && !trend b) || ((trend a == trend b) && momGt (mom a) (mom b))

/-- `main.py` line 276: the ranked eligible universe, the stable sort of
`final` by (trend flag descending, momentum descending). -/
def rankedList (trend : String → Bool) (mom : String → Option ℚ)
    (final : List String) : List String :=
  sortS (ltRank trend mom) final

/-- `main.py` line 277: `rank = arange(1, len+1)` over the sorted order:
the rank of a symbol is its position in the ranked list plus one. -/
def rankOf (trend : String → Bool) (mom : String → Option ℚ)
    (final : List String) (t : String) : ℕ :=
  (rankedList trend mom final).indexOf t + 1

/-- `main.py` line 268: the composite score column
`np.where(trend_ok, mom, -inf)`; NaN when trending with NaN momentum. -/
def scoreOf (trend : String → Bool) (mom : String → Option ℚ) (t : String) : FloatVal :=
  if trend t then
    match mom t with
    | some q => .val q
    | none => .nan
  else .ninf

/-- Order action (`action` column of the orders table). -/
inductive OAction : Type
  | add : OAction
  | drop : OAction
deriving DecidableEq

/-- Order side (`side` column of the orders table). -/
inductive OSide : Type
  | buy : OSide
  | sell : OSide
deriving DecidableEq

/-- Order quantity: `"ALL"` for liquidation, `""` when the price is
missing, or an integer unit count. -/
inductive OQty : Type
  | all : OQty
  | blank : OQty
  | num : ℤ → OQty
deriving DecidableEq

/-- The `note` column, by information content: the fixed sell-all note,
the fixed missing-price note, or the target-notional/quantity note. -/
inductive ONote : Type
  | sellAll : ONote
  | priceMissing : ONote
  | target : ℤ → ℤ → ONote
deriving DecidableEq

/-- One row of the orders table built by `build_orders`. -/
structure Order : Type where
  ticker : String
  action : OAction
  side : OSide
  qty : OQty
  refPrice : Option ℚ
  note : ONote
deriving DecidableEq

/-- `main.py` line 176: the per-slot target notional
`floor((portfolio_value / top_n) / 1000) * 1000`. -/
def targetPer (pv : ℚ) (topN : ℕ) : ℤ :=
  ⌊pv / (topN : ℚ) / 1000⌋ * 1000

/-- `sorted(set(xs) - set(ys))` on ticker strings. -/
def setDiffSorted (xs ys : List String) : List String :=
  sortS strLt (xs.dedup.filter (fun t => decide (t ∉ ys)))

/-- `main.py` lines 161-172: a DROP row — SELL, quantity `"ALL"`, the
reference price when defined. -/
def dropRow (prices : String → Option ℚ) (t : String) : Order :=
  ⟨t, .drop, .sell, .all, prices t, .sellAll⟩

/-- `main.py` lines 176-194: an ADD row — BUY, quantity
`floor(target_per / price)` when the price is defined and positive,
blank with the manual-entry note otherwise. -/
def addRow (prices : String → Option ℚ) (pv : ℚ) (topN : ℕ) (t : String) : Order :=
  match prices t with
  | some p =>
      if p ≤ 0 then ⟨t, .add, .buy, .blank, some p, .priceMissing⟩
      else
        ⟨t, .add, .buy, .num ⌊(targetPer pv topN : ℚ) / p⌋, some p,
          .target (targetPer pv topN) ⌊(targetPer pv topN : ℚ) / p⌋⟩
  | none => ⟨t, .add, .buy, .blank, none, .priceMissing⟩

/-- `main.py` lines 134-199 (`build_orders`): DROP rows for
`sorted(prev - cur)` followed by ADD rows for `sorted(cur - prev)`. -/
def build_orders (cur prev : List String) (prices : String → Option ℚ)
    (pv : ℚ) (topN : ℕ) : List Order :=
  (setDiffSorted prev cur).map (dropRow prices)
    ++ (setDiffSorted cur prev).map (addRow prices pv topN)

/-- `main.py` lines 106-131 (`load_prev_picks_from_history`): sort the
dated snapshots by date, keep those strictly before the as-of date, and
return the pick set of the last of them (empty when none exists). -/
def load_prev_picks (hist : List (String × List String)) (asof : String) : List String :=
  let dated := sortS (fun a b => strLt a.1 b.1) hist
  let prevs := dated.filter (fun e => strLt e.1 asof)
  match prevs.getLast? with
  | some e => e.2
  | none => []

/-! Concrete inputs used by the counterexample and the witnesses. -/

/-- A two-symbol eligible universe, in input order `A` then `B`. -/
def finalCE : List String := ["A", "B"]

/-- Trend flags: no symbol is trending. -/
def trendCE0 : String → Bool := fun _ => false

/-- Trend flags: only `A` is trending. -/
def trendCE1 : String → Bool := fun t => t == "A"

/-- Momentum values: `A` has 1, `B` has 5. -/
def momCE0 : String → Option ℚ := fun t => if t == "A" then some 1 else some 5

/-- A correlation matrix where the pair `(A, B)` has entry 97 (against a
threshold of 95 in the witnesses). -/
def corrCE : String → String → Option ℚ :=
  fun a b => if a == "A" && b == "B" then some 97 else none

/-- The correlation-matrix column order for the witnesses. -/
def colsCE : List String := ["A", "B"]

/-- Traded values: `A` has 100, `B` has 200. -/
def tvCE : List (String × FloatVal) := [("A", .val 100), ("B", .val 200)]

/-- Traded values: `A` is NaN, `B` has 200. -/
def tvCE2 : List (String × FloatVal) := [("A", .nan), ("B", .val 200)]

/-- Reference prices: only `D` has a price, 5. -/
def pricesCE : String → Option ℚ := fun t => if t == "D" then some 5 else none

/-- Two finalized monthly rows, the last one in September 2025. -/
def rowsCE : List (Month × ℚ) := [((2025, 8), 10), ((2025, 9), 11)]

/-- Two historical pick snapshots. -/
def histCE : List (String × List String) :=
  [("2025-07-31", ["A"]), ("2025-08-31", ["B"])]

/-! Facts about the stable insertion sort. -/

theorem mem_insertS {α : Type} (lt : α → α → Bool) (x : α) (l : List α) (a : α) :
    a ∈ insertS lt x l ↔ a = x ∨ a ∈ l := by
  induction l with
  | nil => simp [insertS]
  | cons y ys ih =>
      by_cases h : lt y x = true
      · simp only [insertS, h, if_true, List.mem_cons, ih]
        tauto
      · simp only [insertS, h, if_false, Bool.false_eq_true, List.mem_cons]

theorem insertS_perm {α : Type} (lt : α → α → Bool) (x : α) (l : List α) :
    (insertS lt x l).Perm (x :: l) := by
  induction l with
  | nil => simp [insertS]
  | cons y ys ih =>
      by_cases h : lt y x = true
      · have he : insertS lt x (y :: ys) = y :: insertS lt x ys := by simp [insertS, h]
        rw [he]
        exact (ih.cons y).trans (List.Perm.swap x y ys)
      · have he : insertS lt x (y :: ys) = x :: y :: ys := by simp [insertS, h]
        rw [he]

theorem sortS_perm {α : Type} (lt : α → α → Bool) (l : List α) :
    (sortS lt l).Perm l := by
  induction l with
  | nil => simp [sortS]
  | cons x xs ih => exact (insertS_perm lt x (sortS lt xs)).trans (ih.cons x)

theorem mem_sortS {α : Type} (lt : α → α → Bool) (l : List α) (a : α) :
    a ∈ sortS lt l ↔ a ∈ l :=
  (sortS_perm lt l).mem_iff

theorem nodup_sortS {α : Type} (lt : α → α → Bool) {l : List α} (h : l.Nodup) :
    (sortS lt l).Nodup :=
  (sortS_perm lt l).nodup_iff.mpr h

theorem pairwise_insertS {α : Type} (lt : α → α → Bool)
    (hasym : ∀ a b, lt a b = true → lt b a = false)
    (hneg : ∀ a b c, lt b a = false → lt c b = false → lt c a = false)
    (x : α) (l : List α) (hl : l.Pairwise (fun a b => lt b a = false)) :
    (insertS lt x l).Pairwise (fun a b => lt b a = false) := by
  induction l with
  | nil => simp [insertS]
  | cons y ys ih =>
      rcases List.pairwise_cons.mp hl with ⟨hy, hys⟩
      by_cases h : lt y x = true
      · have he : insertS lt x (y :: ys) = y :: insertS lt x ys := by simp [insertS, h]
        rw [he]
        refine List.pairwise_cons.mpr ⟨?_, ih hys⟩
        intro z hz
        rcases (mem_insertS lt x ys z).mp hz with rfl | hz2
        · exact hasym y z h
        · exact hy z hz2
      · have hf : lt y x = false := by
          cases hyx : lt y x
          · rfl
          · exact absurd hyx h
        have he : insertS lt x (y :: ys) = x :: y :: ys := by simp [insertS, hf]
        rw [he]
        refine List.pairwise_cons.mpr ⟨?_, hl⟩
        intro z hz
        rcases List.mem_cons.mp hz with rfl | hz2
        · exact hf
        · exact hneg x y z hf (hy z hz2)

theorem pairwise_sortS {α : Type} (lt : α → α → Bool)
    (hasym : ∀ a b, lt a b = true → lt b a = false)
    (hneg : ∀ a b c, lt b a = false → lt c b = false → lt c a = false)
    (l : List α) :
    (sortS lt l).Pairwise (fun a b => lt b a = false) := by
  induction l with
  | nil => simp [sortS]
  | cons x xs ih => exact pairwise_insertS lt hasym hneg x _ ih

theorem sublist_insertS {α : Type} (lt : α → α → Bool) (x : α) {s l : List α}
    (h : s.Sublist l) : s.Sublist (insertS lt x l) := by
  induction l generalizing s with
  | nil =>
      rw [List.sublist_nil.mp h]
      exact List.nil_sublist _
  | cons y ys ih =>
      by_cases hxy : lt y x = true
      · have he : insertS lt x (y :: ys) = y :: insertS lt x ys := by simp [insertS, hxy]
        rw [he]
        cases h with
        | cons _ h2 => exact (ih h2).cons y
        | cons₂ _ h2 => exact (ih h2).cons₂ y
      · have he : insertS lt x (y :: ys) = x :: y :: ys := by simp [insertS, hxy]
        rw [he]
        exact h.cons x

theorem pair_sublist_insertS {α : Type} (lt : α → α → Bool) (x b : α) {l : List α}
    (hb : b ∈ l) (hnb : lt b x = false) : [x, b].Sublist (insertS lt x l) := by
  induction l with
  | nil => simp at hb
  | cons y ys ih =>
      by_cases hxy : lt y x = true
      · have he : insertS lt x (y :: ys) = y :: insertS lt x ys := by simp [insertS, hxy]
        rw [he]
        rcases List.mem_cons.mp hb with rfl | hb2
        · rw [hnb] at hxy
          exact absurd hxy (by simp)
        · exact (ih hb2).cons y
      · have he : insertS lt x (y :: ys) = x :: y :: ys := by simp [insertS, hxy]
        rw [he]
        exact (List.singleton_sublist.mpr hb).cons₂ x

theorem sortS_stable {α : Type} (lt : α → α → Bool) {a b : α} {l : List α}
    (h : [a, b].Sublist l) (hnb : lt b a = false) : [a, b].Sublist (sortS lt l) := by
  induction l with
  | nil => simp at h
  | cons x xs ih =>
      cases h with
      | cons _ h2 => exact sublist_insertS lt x (ih h2)
      | cons₂ _ h2 =>
          have hbmem : b ∈ sortS lt xs :=
            (mem_sortS lt xs b).mpr (List.singleton_sublist.mp h2)
          exact pair_sublist_insertS lt a b hbmem hnb

theorem indexOf_lt_of_pair_sublist {α : Type} [DecidableEq α] {a b : α} {l : List α}
    (hnd : l.Nodup) (h : [a, b].Sublist l) : l.indexOf a < l.indexOf b := by
  induction l with
  | nil => simp at h
  | cons x xs ih =>
      rcases List.nodup_cons.mp hnd with ⟨hx, hnd2⟩
      cases h with
      | cons _ h2 =>
          have ha : a ∈ xs := h2.subset (by simp)
          have hb : b ∈ xs := h2.subset (by simp)
          have hxa : x ≠ a := fun e => hx (e ▸ ha)
          have hxb : x ≠ b := fun e => hx (e ▸ hb)
          rw [List.indexOf_cons_ne xs hxa, List.indexOf_cons_ne xs hxb]
          exact Nat.succ_lt_succ (ih hnd2 h2)
      | cons₂ _ h2 =>
          have hb : b ∈ xs := List.singleton_sublist.mp h2
          have hab : a ≠ b := fun e => hx (e ▸ hb)
          rw [List.indexOf_cons_self, List.indexOf_cons_ne xs hab]
          exact Nat.succ_pos _

/-! Order properties of the comparators. -/

theorem momGt_irrefl (m : Option ℚ) : momGt m m = false := by
  cases m <;> simp [momGt]

theorem momGt_asymm (m n : Option ℚ) (h : momGt m n = true) : momGt n m = false := by
  cases m with
  | none => cases n <;> simp [momGt] at h
  | some a =>
      cases n with
      | none => simp [momGt]
      | some b =>
          simp only [momGt, decide_eq_true_eq] at h
          simp only [momGt, decide_eq_false_iff_not]
          exact not_lt.mpr h.le

theorem momGt_negtrans (u v w : Option ℚ) (h1 : momGt v u = false)
    (h2 : momGt w v = false) : momGt w u = false := by
  cases u with
  | none =>
      cases v with
      | none =>
          cases w with
          | none => simp [momGt]
          | some c => simp [momGt] at h2
      | some b => simp [momGt] at h1
  | some a =>
      cases v with
      | none =>
          cases w with
          | none => simp [momGt]
          | some c => simp [momGt] at h2
      | some b =>
          cases w with
          | none => simp [momGt]
          | some c =>
              simp only [momGt, decide_eq_false_iff_not, not_lt] at h1 h2 ⊢
              exact h2.trans h1

theorem ltRank_asymm (trend : String → Bool) (mom : String → Option ℚ) (a b : String)
    (h : ltRank trend mom a b = true) : ltRank trend mom b a = false := by
  unfold ltRank at h ⊢
  cases hta : trend a <;> cases htb : trend b <;> simp [hta, htb] at h ⊢
  · exact momGt_asymm _ _ h
  · exact momGt_asymm _ _ h

theorem ltRank_negtrans (trend : String → Bool) (mom : String → Option ℚ) (a b c : String)
    (h1 : ltRank trend mom b a = false) (h2 : ltRank trend mom c b = false) :
    ltRank trend mom c a = false := by
  unfold ltRank at h1 h2 ⊢
  cases hta : trend a <;> cases htb : trend b <;> cases htc : trend c <;>
    simp [hta, htb, htc] at h1 h2 ⊢
  · exact momGt_negtrans _ _ _ h1 h2
  · exact momGt_negtrans _ _ _ h1 h2

theorem strLt_asymm (a b : String) (h : strLt a b = true) : strLt b a = false := by
  simp only [strLt, decide_eq_true_eq] at h
  simp only [strLt, decide_eq_false_iff_not, not_lt]
  exact h.le

theorem strLt_negtrans (a b c : String) (h1 : strLt b a = false)
    (h2 : strLt c b = false) : strLt c a = false := by
  simp only [strLt, decide_eq_false_iff_not, not_lt] at h1 h2 ⊢
  exact h1.trans h2

theorem strLt_false_iff (a b : String) : strLt a b = false ↔ b ≤ a := by
  simp [strLt, not_lt]

/-! Characterization of the order diff engine. -/

theorem mem_setDiffSorted (xs ys : List String) (t : String) :
    t ∈ setDiffSorted xs ys ↔ t ∈ xs ∧ t ∉ ys := by
  unfold setDiffSorted
  rw [mem_sortS, List.mem_filter]
  simp [List.mem_dedup]

theorem nodup_setDiffSorted (xs ys : List String) : (setDiffSorted xs ys).Nodup :=
  nodup_sortS _ (List.Nodup.filter _ (List.nodup_dedup xs))

theorem sorted_setDiffSorted (xs ys : List String) :
    (setDiffSorted xs ys).Pairwise (fun a b => a ≤ b) := by
  have h := pairwise_sortS strLt strLt_asymm strLt_negtrans
    (xs.dedup.filter (fun t => decide (t ∉ ys)))
  exact h.imp (fun hab => (strLt_false_iff _ _).mp hab)

theorem addRow_action (prices : String → Option ℚ) (pv : ℚ) (n : ℕ) (t : String) :
    (addRow prices pv n t).action = OAction.add := by
  unfold addRow
  cases prices t with
  | none => rfl
  | some p => by_cases hp : p ≤ 0 <;> simp [hp]

theorem addRow_ticker (prices : String → Option ℚ) (pv : ℚ) (n : ℕ) (t : String) :
    (addRow prices pv n t).ticker = t := by
  unfold addRow
  cases prices t with
  | none => rfl
  | some p => by_cases hp : p ≤ 0 <;> simp [hp]

theorem mem_build_orders_add (cur prev : List String) (prices : String → Option ℚ)
    (pv : ℚ) (n : ℕ) (t : String) :
    (∃ r ∈ build_orders cur prev prices pv n, r.action = OAction.add ∧ r.ticker = t)
      ↔ (t ∈ cur ∧ t ∉ prev) := by
  constructor
  · rintro ⟨r, hr, hact, ht⟩
    rw [build_orders, List.mem_append] at hr
    rcases hr with hr | hr
    · rcases List.mem_map.mp hr with ⟨u, _, rfl⟩
      simp [dropRow] at hact
    · rcases List.mem_map.mp hr with ⟨u, hu, rfl⟩
      rw [addRow_ticker] at ht
      rw [← ht]
      exact (mem_setDiffSorted _ _ _).mp hu
  · rintro ⟨h1, h2⟩
    refine ⟨addRow prices pv n t, ?_, addRow_action _ _ _ _, addRow_ticker _ _ _ _⟩
    rw [build_orders, List.mem_append]
    exact Or.inr (List.mem_map_of_mem _ ((mem_setDiffSorted _ _ _).mpr ⟨h1, h2⟩))

theorem mem_build_orders_drop (cur prev : List String) (prices : String → Option ℚ)
    (pv : ℚ) (n : ℕ) (t : String) :
    (∃ r ∈ build_orders cur prev prices pv n, r.action = OAction.drop ∧ r.ticker = t)
      ↔ (t ∈ prev ∧ t ∉ cur) := by
  constructor
  · rintro ⟨r, hr, hact, ht⟩
    rw [build_orders, List.mem_append] at hr
    rcases hr with hr | hr
    · rcases List.mem_map.mp hr with ⟨u, hu, rfl⟩
      rw [show (dropRow prices u).ticker = u from rfl] at ht
      rw [← ht]
      exact (mem_setDiffSorted _ _ _).mp hu
    · rcases List.mem_map.mp hr with ⟨u, _, rfl⟩
      rw [addRow_action] at hact
      simp at hact
  · rintro ⟨h1, h2⟩
    refine ⟨dropRow prices t, ?_, rfl, rfl⟩
    rw [build_orders, List.mem_append]
    exact Or.inl (List.mem_map_of_mem _ ((mem_setDiffSorted _ _ _).mpr ⟨h1, h2⟩))

theorem build_orders_nil_of_eq (cur prev : List String) (prices : String → Option ℚ)
    (pv : ℚ) (n : ℕ) (h : ∀ t, t ∈ cur ↔ t ∈ prev) :
    build_orders cur prev prices pv n = [] := by
  have h1 : setDiffSorted cur prev = [] := by
    apply List.eq_nil_iff_forall_not_mem.mpr
    intro t ht
    rcases (mem_setDiffSorted _ _ _).mp ht with ⟨h2, h3⟩
    exact h3 ((h t).mp h2)
  have h2 : setDiffSorted prev cur = [] := by
    apply List.eq_nil_iff_forall_not_mem.mpr
    intro t ht
    rcases (mem_setDiffSorted _ _ _).mp ht with ⟨h2, h3⟩
    exact h3 ((h t).mpr h2)
  rw [build_orders, h1, h2]
  rfl

/-! Characterization of the correlation deduplicator. -/

theorem mem_corrStep_of_mem (corr : String → String → Option ℚ) (thr : ℚ)
    (tv : List (String × FloatVal)) (acc : List String) (p : String × String) (x : String)
    (h : x ∈ acc) : x ∈ corrStep corr thr tv acc p := by
  unfold corrStep
  cases corr p.1 p.2 with
  | none => exact h
  | some c =>
      by_cases hc : thr ≤ c
      · simp only [hc, if_true]
        exact List.mem_insert_iff.mpr (Or.inr h)
      · simpa [hc] using h

theorem foldl_corrStep_mono (corr : String → String → Option ℚ) (thr : ℚ)
    (tv : List (String × FloatVal)) (ps : List (String × String)) (acc : List String)
    (x : String) (h : x ∈ acc) : x ∈ ps.foldl (corrStep corr thr tv) acc := by
  induction ps generalizing acc with
  | nil => exact h
  | cons q qs ih => exact ih _ (mem_corrStep_of_mem corr thr tv acc q x h)

theorem dropChoice_mem_toDrop (corr : String → String → Option ℚ) (thr : ℚ)
    (tv : List (String × FloatVal)) (cols : List String) (a b : String) (c : ℚ)
    (hp : (a, b) ∈ pairsOf cols) (hc : corr a b = some c) (hthr : thr ≤ c) :
    dropChoice tv a b ∈ toDrop corr thr tv cols := by
  unfold toDrop
  suffices h : ∀ (ps : List (String × String)) (acc : List String), (a, b) ∈ ps →
      dropChoice tv a b ∈ ps.foldl (corrStep corr thr tv) acc from h _ _ hp
  intro ps
  induction ps with
  | nil =>
      intro acc hmem
      simp at hmem
  | cons q qs ih =>
      intro acc hmem
      rcases List.mem_cons.mp hmem with heq | h2
      · rw [← heq]
        rw [List.foldl_cons]
        apply foldl_corrStep_mono
        unfold corrStep
        rw [hc]
        simp only [hthr, if_true]
        exact List.mem_insert_iff.mpr (Or.inl rfl)
      · exact ih _ h2

/-! Helpers for the historical pick lookup. -/

theorem mem_of_getLastQ {α : Type} {l : List α} {e : α} (h : l.getLast? = some e) :
    e ∈ l := by
  induction l with
  | nil => simp at h
  | cons a as ih =>
      cases as with
      | nil =>
          simp at h
          simp [h]
      | cons b bs =>
          rw [List.getLast?_cons_cons] at h
          exact List.mem_cons.mpr (Or.inr (ih h))

theorem getLast_rel_of_pairwise {α : Type} {R : α → α → Prop} {l : List α} {e : α}
    (hp : l.Pairwise R) (hl : l.getLast? = some e) (x : α) (hx : x ∈ l) :
    x = e ∨ R x e := by
  induction l with
  | nil => simp at hl
  | cons a as ih =>
      cases as with
      | nil =>
          simp at hl hx
          left
          rw [hx, hl]
      | cons b bs =>
          rw [List.getLast?_cons_cons] at hl
          rcases List.pairwise_cons.mp hp with ⟨ha, hp2⟩
          rcases List.mem_cons.mp hx with rfl | hx2
          · exact Or.inr (ha e (mem_of_getLastQ hl))
          · exact ih hp2 hl hx2

theorem eq_of_mem_nodup_map {α β : Type} {f : α → β} {l : List α}
    (hnd : (l.map f).Nodup) {a b : α} (ha : a ∈ l) (hb : b ∈ l) (hf : f a = f b) :
    a = b := by
  induction l with
  | nil => simp at ha
  | cons x xs ih =>
      rw [List.map_cons, List.nodup_cons] at hnd
      rcases hnd with ⟨hx, hnd2⟩
      rcases List.mem_cons.mp ha with rfl | ha2
      · rcases List.mem_cons.mp hb with rfl | hb2
        · rfl
        · exact absurd (hf ▸ List.mem_map_of_mem f hb2) hx
      · rcases List.mem_cons.mp hb with rfl | hb2
        · exact absurd (hf ▸ List.mem_map_of_mem f ha2) hx
        · exact ih hnd2 ha2 hb2

theorem ticker_of_mem_build_orders (cur prev : List String)
    (prices : String → Option ℚ) (pv : ℚ) (n : ℕ) (r : Order)
    (hr : r ∈ build_orders cur prev prices pv n) :
    (r.ticker ∈ prev ∧ r.ticker ∉ cur) ∨ (r.ticker ∈ cur ∧ r.ticker ∉ prev) := by
  rw [build_orders, List.mem_append] at hr
  rcases hr with hr | hr
  · rcases List.mem_map.mp hr with ⟨u, hu, rfl⟩
    exact Or.inl ((mem_setDiffSorted _ _ _).mp hu)
  · rcases List.mem_map.mp hr with ⟨u, hu, rfl⟩
    rw [addRow_ticker]
    exact Or.inr ((mem_setDiffSorted _ _ _).mp hu)

/-! Claim theorems. -/

/-- C4: for every current pick set `cur` and previous pick set `prev`, the
order diff engine emits ADD rows for exactly the symbols in `cur` and not
in `prev`, DROP rows for exactly the symbols in `prev` and not in `cur`,
no symbol ever has both an ADD and a DROP row, symbols in both pick sets
produce no row at all, and equal pick sets produce an empty table. -/
theorem order_diff_pure_set_difference (cur prev : List String)
    (prices : String → Option ℚ) (pv : ℚ) (n : ℕ) :
    (∀ t, (∃ r ∈ build_orders cur prev prices pv n, r.action = OAction.add ∧ r.ticker = t)
        ↔ (t ∈ cur ∧ t ∉ prev))
  ∧ (∀ t, (∃ r ∈ build_orders cur prev prices pv n, r.action = OAction.add ∧ r.ticker = t)
        → ¬ (∃ r ∈ build_orders cur prev prices pv n, r.action = OAction.drop ∧ r.ticker = t))
  ∧ (∀ t, (∃ r ∈ build_orders cur prev prices pv n, r.action = OAction.drop ∧ r.ticker = t)
        ↔ (t ∈ prev ∧ t ∉ cur))
  ∧ (∀ t, t ∈ cur → t ∈ prev → ∀ r ∈ build_orders cur prev prices pv n, r.ticker ≠ t)
  ∧ ((∀ t, t ∈ cur ↔ t ∈ prev) → build_orders cur prev prices pv n = []) := by
  refine ⟨fun t => mem_build_orders_add cur prev prices pv n t, ?_, fun t =>
    mem_build_orders_drop cur prev prices pv n t, ?_, build_orders_nil_of_eq cur prev prices pv n⟩
  · intro t hadd hdrop
    rcases (mem_build_orders_add cur prev prices pv n t).mp hadd with ⟨h1, h2⟩
    rcases (mem_build_orders_drop cur prev prices pv n t).mp hdrop with ⟨h3, _⟩
    exact h2 h3
  · intro t hcur hprev r hr het
    rcases ticker_of_mem_build_orders cur prev prices pv n r hr with ⟨_, h2⟩ | ⟨_, h2⟩
    · exact h2 (het ▸ hcur)
    · exact h2 (het ▸ hprev)

/-- C9: the order table is the DROP rows followed by the ADD rows, each
group sorted by ticker ascending, and every DROP row is a SELL with
quantity `"ALL"` and the reference price of its ticker when defined. -/
theorem orders_layout (cur prev : List String) (prices : String → Option ℚ)
    (pv : ℚ) (n : ℕ) :
    ∃ drops adds, build_orders cur prev prices pv n = drops ++ adds
  ∧ (∀ r ∈ drops, r.action = OAction.drop ∧ r.side = OSide.sell ∧ r.qty = OQty.all
        ∧ r.refPrice = prices r.ticker)
  ∧ drops.Pairwise (fun r s => r.ticker ≤ s.ticker)
  ∧ (∀ r ∈ adds, r.action = OAction.add ∧ r.side = OSide.buy)
  ∧ adds.Pairwise (fun r s => r.ticker ≤ s.ticker) := by
  refine ⟨(setDiffSorted prev cur).map (dropRow prices),
    (setDiffSorted cur prev).map (addRow prices pv n), rfl, ?_, ?_, ?_, ?_⟩
  · intro r hr
    rcases List.mem_map.mp hr with ⟨u, _, rfl⟩
    exact ⟨rfl, rfl, rfl, rfl⟩
  · exact List.Pairwise.map _ (fun a b h => h) (sorted_setDiffSorted prev cur)
  · intro r hr
    rcases List.mem_map.mp hr with ⟨u, _, rfl⟩
    refine ⟨addRow_action _ _ _ _, ?_⟩
    unfold addRow
    cases prices u with
    | none => rfl
    | some p => by_cases hp : p ≤ 0 <;> simp [hp]
  · refine List.Pairwise.map _ (fun a b h => ?_) (sorted_setDiffSorted cur prev)
    rw [addRow_ticker, addRow_ticker]
    exact h

/-- C5: for every ADD row the target notional is
`floor(portfolio_value / N / 1000) * 1000` and, when the reference price
is defined and positive, the quantity is `floor(target / price)`; when
the price is missing or non-positive the quantity is blank with the
manual-entry note, and the symbol still gets its ADD row (other order
generation is not blocked). -/
theorem add_order_sizing (cur prev : List String) (prices : String → Option ℚ)
    (pv : ℚ) (n : ℕ) (t : String) (ht : t ∈ cur) (hnp : t ∉ prev) :
    targetPer pv n = ⌊pv / (n : ℚ) / 1000⌋ * 1000
  ∧ (∀ p : ℚ, prices t = some p → 0 < p →
      ∃ r ∈ build_orders cur prev prices pv n,
        r.ticker = t ∧ r.action = OAction.add
          ∧ r.qty = OQty.num ⌊(targetPer pv n : ℚ) / p⌋)
  ∧ ((prices t = none ∨ ∃ p, prices t = some p ∧ p ≤ 0) →
      ∃ r ∈ build_orders cur prev prices pv n,
        r.ticker = t ∧ r.action = OAction.add ∧ r.qty = OQty.blank
          ∧ r.note = ONote.priceMissing) := by
  have hmem : addRow prices pv n t ∈ build_orders cur prev prices pv n := by
    rw [build_orders, List.mem_append]
    exact Or.inr (List.mem_map_of_mem _ ((mem_setDiffSorted _ _ _).mpr ⟨ht, hnp⟩))
  refine ⟨rfl, ?_, ?_⟩
  · intro p hp hpos
    refine ⟨addRow prices pv n t, hmem, addRow_ticker _ _ _ _, addRow_action _ _ _ _, ?_⟩
    simp only [addRow, hp]
    rw [if_neg (not_le.mpr hpos)]
  · intro hmiss
    refine ⟨addRow prices pv n t, hmem, addRow_ticker _ _ _ _, addRow_action _ _ _ _, ?_⟩
    rcases hmiss with hp | ⟨p, hp, hple⟩
    · simp [addRow, hp]
    · simp [addRow, hp, if_pos hple]

/-- Witness for C5 at the spec scenario: portfolio 1,000,000 and N = 3
give target 333,000; with price 5 the quantity is 66,600. -/
theorem add_order_sizing_witness :
    ("D" ∈ ["D"] ∧ ("D" : String) ∉ ([] : List String) ∧ pricesCE "D" = some 5 ∧ (0 : ℚ) < 5)
  ∧ (∃ r ∈ build_orders ["D"] [] pricesCE 1000000 3,
      r.ticker = "D" ∧ r.action = OAction.add
        ∧ r.qty = OQty.num ⌊(targetPer 1000000 3 : ℚ) / 5⌋) :=
  ⟨⟨by decide, by decide, by decide, by decide⟩,
    (add_order_sizing ["D"] [] pricesCE 1000000 3 "D" (by decide) (by decide)).2.1 5
      (by decide) (by decide)⟩

/-- C2: for every flagged pair whose traded-value metrics are both
defined, the member with the strictly lower metric is the one chosen for
removal (never the strictly higher one), an exact tie deterministically
chooses the second member, and the chosen member is in the final removal
set — once marked it stays marked through all remaining pairs. -/
theorem corr_dedup_marks_lower (cols : List String) (corr : String → String → Option ℚ)
    (thr : ℚ) (tv : List (String × FloatVal)) (a b : String) (c va vb : ℚ)
    (hp : (a, b) ∈ pairsOf cols) (hc : corr a b = some c) (hthr : thr ≤ c)
    (ha : tvGet tv a = FloatVal.val va) (hb : tvGet tv b = FloatVal.val vb) :
    (va < vb → dropChoice tv a b = a)
  ∧ (vb < va → dropChoice tv a b = b)
  ∧ (va = vb → dropChoice tv a b = b)
  ∧ (dropChoice tv a b = a → va ≤ vb)
  ∧ (dropChoice tv a b = b → vb ≤ va)
  ∧ dropChoice tv a b ∈ toDrop corr thr tv cols := by
  have hd : dropChoice tv a b = if va < vb then a else b := by
    unfold dropChoice
    rw [ha, hb]
    simp [flt]
  refine ⟨?_, ?_, ?_, ?_, ?_, dropChoice_mem_toDrop corr thr tv cols a b c hp hc hthr⟩
  · intro h
    rw [hd, if_pos h]
  · intro h
    rw [hd, if_neg (not_lt.mpr h.le)]
  · intro h
    rw [hd, if_neg (by rw [h]; exact lt_irrefl vb)]
  · intro h
    by_cases hlt : va < vb
    · exact hlt.le
    · rw [hd, if_neg hlt] at h
      rw [h] at hb
      rw [ha] at hb
      injection hb with hba
      exact le_of_eq hba
  · intro h
    by_cases hlt : va < vb
    · rw [hd, if_pos hlt] at h
      rw [← h] at hb
      rw [ha] at hb
      injection hb with hba
      exact le_of_eq hba.symm
    · exact not_lt.mp hlt

/-- Witness for C2: pair (A, B) with correlation 0.97 ≥ 0.95 and traded
values 100 < 200; A is chosen and lands in the removal set. -/
theorem corr_dedup_marks_lower_witness :
    (("A", "B") ∈ pairsOf colsCE ∧ corrCE "A" "B" = some 97
      ∧ (95 : ℚ) ≤ 97
      ∧ tvGet tvCE "A" = FloatVal.val 100 ∧ tvGet tvCE "B" = FloatVal.val 200)
  ∧ ((100 : ℚ) < 200 → dropChoice tvCE "A" "B" = "A")
  ∧ dropChoice tvCE "A" "B" ∈ toDrop corrCE 95 tvCE colsCE := by
  refine ⟨⟨by decide, by decide, by decide, by decide, by decide⟩, ?_, ?_⟩
  · exact (corr_dedup_marks_lower colsCE corrCE 95 tvCE "A" "B" 97 100 200
      (by decide) (by decide) (by decide) (by decide) (by decide)).1
  · exact (corr_dedup_marks_lower colsCE corrCE 95 tvCE "A" "B" 97 100 200
      (by decide) (by decide) (by decide) (by decide) (by decide)).2.2.2.2.2

/-- C10: when the first member of a flagged pair has a NaN traded-value
metric, the IEEE comparison `NaN < x` is false, so the tie-break falls to
the `else` branch and the second member is the one marked, whatever its
own metric. -/
theorem nan_metric_drops_second (cols : List String) (corr : String → String → Option ℚ)
    (thr : ℚ) (tv : List (String × FloatVal)) (a b : String) (c : ℚ)
    (hp : (a, b) ∈ pairsOf cols) (hc : corr a b = some c) (hthr : thr ≤ c)
    (hna : tvGet tv a = FloatVal.nan) :
    dropChoice tv a b = b ∧ b ∈ toDrop corr thr tv cols := by
  have hd : dropChoice tv a b = b := by
    unfold dropChoice
    rw [hna]
    cases htv : tvGet tv b <;> simp [flt]
  exact ⟨hd, hd ▸ dropChoice_mem_toDrop corr thr tv cols a b c hp hc hthr⟩

/-- Witness for C10: A has a NaN metric, B has the defined value 200, and
B is the member marked for removal. -/
theorem nan_metric_drops_second_witness :
    (("A", "B") ∈ pairsOf colsCE ∧ corrCE "A" "B" = some 97
      ∧ (95 : ℚ) ≤ 97 ∧ tvGet tvCE2 "A" = FloatVal.nan
      ∧ tvGet tvCE2 "B" = FloatVal.val 200)
  ∧ dropChoice tvCE2 "A" "B" = "B" ∧ "B" ∈ toDrop corrCE 95 tvCE2 colsCE :=
  ⟨⟨by decide, by decide, by decide, by decide, by decide⟩,
    nan_metric_drops_second colsCE corrCE 95 tvCE2 "A" "B" 97
      (by decide) (by decide) (by decide) (by decide)⟩

/-- C6: a symbol passes the liquidity filter iff its trailing
60-observation average of close times volume is defined and at least the
threshold of its market classification (the `.T` suffix selects the yen
threshold, all other symbols the default); fewer than 60 observations
give an undefined metric, which fails. -/
theorem liquidity_filter_rule (closes vols : List (Option ℚ)) (t : String) :
    (liqOk closes vols t = true ↔
      ∃ v, tradedValue60 closes vols = some v ∧ liquidity_threshold t ≤ v)
  ∧ (t.endsWith ".T" = true → liquidity_threshold t = 50000000)
  ∧ (t.endsWith ".T" = false → liquidity_threshold t = 1000000)
  ∧ (closes.length < 60 →
      tradedValue60 closes vols = none ∧ liqOk closes vols t = false) := by
  refine ⟨?_, ?_, ?_, ?_⟩
  · unfold liqOk
    cases h : tradedValue60 closes vols with
    | none => simp
    | some v => simp
  · intro h
    simp [liquidity_threshold, h]
  · intro h
    simp [liquidity_threshold, h]
  · intro h
    have hlen : (prodCV closes vols).length < 60 := by
      rw [prodCV, List.length_zipWith]
      exact lt_of_le_of_lt (min_le_left _ _) h
    have hm : tradedValue60 closes vols = none := by
      unfold tradedValue60 rollingMeanLast
      rw [if_pos hlen]
    refine ⟨hm, ?_⟩
    unfold liqOk
    rw [hm]

/-- C7: with a nonempty monthly table, the aggregator drops the trailing
row exactly when its calendar month equals the current processing month,
before any scoring sees the table, and the insufficient-history error is
raised exactly when fewer than `max maM momM + 2` finalized rows remain
(the scorer receives the finalized rows otherwise). -/
theorem monthly_open_month_rule (α : Type) (rows : List (Month × α)) (now : Month)
    (maM momM : ℕ) (e : Month × α) (hl : rows.getLast? = some e) :
    (e.1 = now → dropOpenMonth rows now = rows.dropLast)
  ∧ (e.1 ≠ now → dropOpenMonth rows now = rows)
  ∧ (isErr (monthlyAggregate rows now maM momM) = true ↔
      (dropOpenMonth rows now).length < max maM momM + 2)
  ∧ (∀ l, monthlyAggregate rows now maM momM = Except.ok l →
      l = dropOpenMonth rows now) := by
  refine ⟨?_, ?_, ?_, ?_⟩
  · intro h
    unfold dropOpenMonth
    rw [hl]
    simp [h]
  · intro h
    unfold dropOpenMonth
    rw [hl]
    simp [h]
  · unfold monthlyAggregate
    by_cases h : (dropOpenMonth rows now).length < max maM momM + 2
    · simp [h, isErr]
    · simp [h, isErr]
  · intro l h
    unfold monthlyAggregate at h
    by_cases hlen : (dropOpenMonth rows now).length < max maM momM + 2
    · rw [if_pos hlen] at h
      cases h
    · rw [if_neg hlen] at h
      cases h
      rfl

/-- Witness for C7: September 2025 is still open at processing time, so
the trailing September row is dropped, and the single remaining row is
fewer than `max 10 12 + 2`, so the insufficient-history error fires. -/
theorem monthly_open_month_rule_witness :
    rowsCE.getLast? = some ((2025, 9), (11 : ℚ))
  ∧ dropOpenMonth rowsCE (2025, 9) = rowsCE.dropLast
  ∧ isErr (monthlyAggregate rowsCE (2025, 9) 10 12) = true :=
  ⟨by decide,
    (monthly_open_month_rule ℚ rowsCE (2025, 9) 10 12 ((2025, 9), 11) (by decide)).1 rfl,
    (monthly_open_month_rule ℚ rowsCE (2025, 9) 10 12 ((2025, 9), 11) (by decide)).2.2.1.mpr
      (by decide)⟩

/-- C3: a trending eligible symbol always receives a strictly smaller
rank than a non-trending eligible symbol, whatever their momentum
values, because the trend flag is the primary (descending) sort key. -/
theorem trending_outranks (trend : String → Bool) (mom : String → Option ℚ)
    (final : List String) (a b : String) (ha : a ∈ final) (hb : b ∈ final)
    (hta : trend a = true) (htb : trend b = false) :
    rankOf trend mom final a < rankOf trend mom final b := by
  unfold rankOf
  have hmain : (rankedList trend mom final).indexOf a
      < (rankedList trend mom final).indexOf b := by
    have hlt : ltRank trend mom a b = true := by simp [ltRank, hta, htb]
    have has : a ∈ rankedList trend mom final := (mem_sortS _ _ _).mpr ha
    have hbs : b ∈ rankedList trend mom final := (mem_sortS _ _ _).mpr hb
    have hpw : (rankedList trend mom final).Pairwise
        (fun x y => ltRank trend mom y x = false) :=
      pairwise_sortS (ltRank trend mom) (ltRank_asymm trend mom)
        (ltRank_negtrans trend mom) final
    have hia := List.indexOf_lt_length.mpr has
    have hib := List.indexOf_lt_length.mpr hbs
    by_contra hcon
    push_neg at hcon
    rcases lt_or_eq_of_le hcon with hlt2 | heq
    · have hrel := List.pairwise_iff_get.mp hpw ⟨_, hib⟩ ⟨_, hia⟩ hlt2
      rw [List.indexOf_get hib, List.indexOf_get hia] at hrel
      rw [hlt] at hrel
      cases hrel
    · have hba : b = a := (List.indexOf_inj hbs has).mp heq
      rw [hba, hta] at htb
      cases htb
  exact Nat.add_lt_add_right hmain 1

/-- Witness for C3: `A` trends and `B` does not, and `A` outranks `B`
although `B` has the larger momentum. -/
theorem trending_outranks_witness :
    ("A" ∈ finalCE ∧ "B" ∈ finalCE ∧ trendCE1 "A" = true ∧ trendCE1 "B" = false)
  ∧ rankOf trendCE1 momCE0 finalCE "A" < rankOf trendCE1 momCE0 finalCE "B" :=
  ⟨⟨by decide, by decide, by decide, by decide⟩,
    trending_outranks trendCE1 momCE0 finalCE "A" "B" (by decide) (by decide)
      (by decide) (by decide)⟩

/-- C1 (amended): the ranker sorts the eligible universe by (trend flag
descending, momentum descending, undefined momentum last within its
trend group); two symbols with equal trend flag and equal momentum keep
their relative input order; rank 1 goes to the first symbol of this
order and ranks increase by one. Within the trending group this agrees
with composite-score order, but the non-trending group is ordered by raw
momentum, not by input order. -/
theorem ranker_order (trend : String → Bool) (mom : String → Option ℚ)
    (final : List String) (hnd : final.Nodup) :
    (rankedList trend mom final).Perm final
  ∧ (rankedList trend mom final).Pairwise (fun a b => ltRank trend mom b a = false)
  ∧ (∀ a b, [a, b].Sublist final → trend a = trend b → mom a = mom b →
      [a, b].Sublist (rankedList trend mom final))
  ∧ (∀ i (h : i < (rankedList trend mom final).length),
      rankOf trend mom final ((rankedList trend mom final).get ⟨i, h⟩) = i + 1) := by
  refine ⟨sortS_perm _ _,
    pairwise_sortS _ (ltRank_asymm trend mom) (ltRank_negtrans trend mom) _, ?_, ?_⟩
  · intro a b hsub hts hms
    apply sortS_stable _ hsub
    simp [ltRank, hts, hms, momGt_irrefl]
  · intro i h
    unfold rankOf
    have hnds : (rankedList trend mom final).Nodup := nodup_sortS _ hnd
    rw [show (rankedList trend mom final).get ⟨i, h⟩
        = (rankedList trend mom final)[i] from rfl]
    rw [List.indexOf_getElem hnds i h]

/-- Witness for C1 (amended) at a concrete eligible universe. -/
theorem ranker_order_witness :
    finalCE.Nodup ∧ (rankedList trendCE1 momCE0 finalCE).Perm finalCE :=
  ⟨by decide, (ranker_order trendCE1 momCE0 finalCE (by decide)).1⟩

/-- C1 counterexample: with no symbol trending, both composite scores
equal negative infinity and `A` precedes `B` in the eligible input, so
the claimed stable composite-score order would rank `A` first; the code
instead ranks `B` strictly better, because line 276 sorts on the raw
momentum column, not on the composite score. -/
theorem ranker_score_tie_broken_by_momentum :
    scoreOf trendCE0 momCE0 "A" = scoreOf trendCE0 momCE0 "B"
  ∧ finalCE.indexOf "A" < finalCE.indexOf "B"
  ∧ rankOf trendCE0 momCE0 finalCE "B" < rankOf trendCE0 momCE0 finalCE "A" := by
  refine ⟨by decide, by decide, by decide⟩

/-- A nonempty list has a last element. -/
theorem getLastQ_of_ne_nil {α : Type} {l : List α} (h : l ≠ []) :
    ∃ e, l.getLast? = some e := by
  induction l with
  | nil => exact absurd rfl h
  | cons a as ih =>
      cases as with
      | nil => exact ⟨a, rfl⟩
      | cons b bs =>
          rw [List.getLast?_cons_cons]
          exact ih (by simp)

/-- C8: with distinct snapshot dates, the previous pick set is the single
snapshot whose date is greatest among those strictly below the as-of
date (a snapshot dated exactly the as-of date is never chosen); with no
strictly earlier snapshot the previous set is empty, and against an
empty previous set every current pick gets an ADD row and no DROP row
exists. -/
theorem prev_picks_latest_strictly_before (hist : List (String × List String))
    (asof : String) (hnd : (hist.map Prod.fst).Nodup) :
    (∀ d picks, (d, picks) ∈ hist → d < asof →
        (∀ e ∈ hist, e.1 < asof → e.1 ≤ d) → load_prev_picks hist asof = picks)
  ∧ ((∀ e ∈ hist, ¬ e.1 < asof) → load_prev_picks hist asof = [])
  ∧ (∀ cur (prices : String → Option ℚ) (pv : ℚ) (n : ℕ),
      (∀ t, (∃ r ∈ build_orders cur [] prices pv n,
          r.action = OAction.add ∧ r.ticker = t) ↔ t ∈ cur)
    ∧ (∀ r ∈ build_orders cur [] prices pv n, r.action ≠ OAction.drop)) := by
  refine ⟨?_, ?_, ?_⟩
  · intro d picks hmem hd hmax
    have hmd : (d, picks) ∈ sortS (fun a b => strLt a.1 b.1) hist :=
      (mem_sortS _ _ _).mpr hmem
    have hfil : (d, picks) ∈ (sortS (fun a b => strLt a.1 b.1) hist).filter
        (fun e => strLt e.1 asof) :=
      List.mem_filter.mpr ⟨hmd, by simpa [strLt] using hd⟩
    rcases getLastQ_of_ne_nil (l := (sortS (fun a b => strLt a.1 b.1) hist).filter
        (fun e => strLt e.1 asof)) (by intro hn; rw [hn] at hfil; simp at hfil) with ⟨e, hg⟩
    have hpw := pairwise_sortS (fun a b : String × List String => strLt a.1 b.1)
      (fun a b h => strLt_asymm a.1 b.1 h) (fun a b c h1 h2 => strLt_negtrans a.1 b.1 c.1 h1 h2)
      hist
    have hpwf := List.Pairwise.filter (fun e => strLt e.1 asof) hpw
    have hrel := getLast_rel_of_pairwise hpwf hg (d, picks) hfil
    have hem : e ∈ (sortS (fun a b => strLt a.1 b.1) hist).filter (fun e => strLt e.1 asof) :=
      mem_of_getLastQ hg
    rcases List.mem_filter.mp hem with ⟨hes, helt⟩
    have hehist : e ∈ hist := (mem_sortS _ _ _).mp hes
    have heasof : e.1 < asof := by simpa [strLt] using helt
    have heq : e = (d, picks) := by
      rcases hrel with heq | hle
      · exact heq.symm
      · have h1 : d ≤ e.1 := (strLt_false_iff _ _).mp hle
        have h2 : e.1 ≤ d := hmax e hehist heasof
        exact eq_of_mem_nodup_map hnd hehist hmem (le_antisymm h2 h1)
    simp only [load_prev_picks]
    rw [hg, heq]
  · intro hnone
    have hfe : (sortS (fun a b => strLt a.1 b.1) hist).filter (fun e => strLt e.1 asof) = [] := by
      apply List.filter_eq_nil_iff.mpr
      intro e he
      have : e ∈ hist := (mem_sortS _ _ _).mp he
      simpa [strLt] using hnone e this
    simp only [load_prev_picks]
    rw [hfe]
    rfl
  · intro cur prices pv n
    constructor
    · intro t
      rw [mem_build_orders_add]
      simp
    · intro r hr hdrop
      have hsd : setDiffSorted [] cur = [] := rfl
      rw [build_orders, hsd] at hr
      simp only [List.map_nil, List.nil_append] at hr
      rcases List.mem_map.mp hr with ⟨u, _, rfl⟩
      rw [addRow_action] at hdrop
      cases hdrop

/-- Witness for C8: of the two snapshots, the one dated 2025-08-31 is
the greatest strictly before the as-of date 2025-09-30, and its pick set
is the one returned. -/
theorem prev_picks_latest_strictly_before_witness :
    ((histCE.map Prod.fst).Nodup
      ∧ ("2025-08-31", ["B"]) ∈ histCE ∧ ("2025-08-31" : String) < "2025-09-30")
  ∧ load_prev_picks histCE "2025-09-30" = ["B"] := by
  have hlt : ("2025-08-31" : String) < "2025-09-30" := by
    rw [String.lt_iff_toList_lt]
    decide
  have hmax : ∀ e ∈ histCE, e.1 < "2025-09-30" → e.1 ≤ ("2025-08-31" : String) := by
    intro e he _
    rcases List.mem_cons.mp he with rfl | he2
    · rw [String.le_iff_toList_le]
      decide
    · rcases List.mem_cons.mp he2 with rfl | he3
      · exact le_refl _
      · simp at he3
  exact ⟨⟨by decide, by decide, hlt⟩,
    (prev_picks_latest_strictly_before histCE "2025-09-30" (by decide)).1
      "2025-08-31" ["B"] (by decide) hlt hmax⟩

end TrendScreen
